import Mathlib

/-!
# urlshort: redirect resolution and mapping loader

A shallow embedding of `handler.go` (package `urlshort`).

* Go's `map[string]string` is an association list with at most one entry per
  key; `make`, the assignment `m[k] = v` and the comma-ok index expression
  `v, ok := m[k]` are the three operations the package uses.
* The state behind an `http.ResponseWriter` is a type parameter `W`.  A
  `http.Handler` is its `ServeHTTP` method, a transformer of that state, and
  `http.Redirect` (package `net/http`) is passed in as a parameter.
* The function literal returned by `MapHandler` is the record of the two
  variables it captures; calling it runs the body of the literal and gives
  back the captured variables together with the new writer state.
* `yaml.Unmarshal` (package `gopkg.in/yaml.v3`) is passed in as a parameter.
* A Go map is a reference: the map the closure captures is the object the
  caller of `MapHandler` passed in, and whoever else holds it may write it.
  `Shared` puts the contents of that object into the state a call runs in, so
  that the response writer and the fallback handler can reach it;
  `MapHandlerShared` is the closure body over that state.
-/

namespace urlshort

/-! ## Go maps -/

/-- Go's `map[string]string`: the entries, one per key. -/
abbrev GoMap := List (String × String)

namespace GoMap

/-- The value `make(map[string]string)`. -/
def make : GoMap := []

/-- The assignment `m[k] = v`: overwrite the entry of `k`, or add one. -/
def assign : GoMap → String → String → GoMap
  | [], k, v => [(k, v)]
  | (k', v') :: m, k, v =>
    if k' = k then (k, v) :: m else (k', v') :: assign m k v

/-- The index expression `v, ok := m[k]`: the value of `k` and `true`, or the
zero value `""` and `false` when `k` is not a key. -/
def index : GoMap → String → String × Bool
  | [], _ => ("", false)
  | (k', v') :: m, k => if k' = k then (v', true) else index m k

/-- The keys of the map. -/
def keys (m : GoMap) : List String := m.map Prod.fst

/-- The value `len(m)`. -/
def len (m : GoMap) : Nat := m.length

end GoMap

/-! ## net/http -/

/-- The part of `net/url.URL` a request carries. -/
structure URL where
  Scheme : String
  Host : String
  Path : String
  RawQuery : String
deriving DecidableEq, Repr

/-- The part of `net/http.Request` the handlers see. -/
structure Request where
  Method : String
  URL : URL
deriving DecidableEq, Repr

/-- The constant `http.StatusPermanentRedirect` of `net/http`. -/
def StatusPermanentRedirect : Nat := 308

/-- A `http.Handler`, given by its method `ServeHTTP(w, r)`: what it does to
the state behind the response writer. -/
abbrev Handler (W : Type) := W → Request → W

/-- The function `http.Redirect(w, r, url, code)` of `net/http`. -/
abbrev RedirectFn (W : Type) := W → Request → String → Nat → W

/-! ## handler.go -/

/-- The function literal `MapHandler` returns: the variables it captures. -/
structure HandlerFunc (W : Type) where
  pathsToUrls : GoMap
  fallback : Handler W

/-- `MapHandler(pathsToUrls, fallback)`: the closure over its two arguments. -/
def MapHandler {W : Type} (pathsToUrls : GoMap) (fallback : Handler W) :
    HandlerFunc W :=
  { pathsToUrls := pathsToUrls, fallback := fallback }

/-- The body of the function literal of `MapHandler`, run on `(w, r)`: the
captured variables after the call and the writer state after the call. -/
def HandlerFunc.ServeHTTP {W : Type} (Redirect : RedirectFn W)
    (h : HandlerFunc W) (w : W) (r : Request) : HandlerFunc W × W :=
  let path := r.URL.Path
  let (redirect, found) := h.pathsToUrls.index path
  if found then
    (h, Redirect w r redirect StatusPermanentRedirect)
  else
    (h, h.fallback w r)

/-- The struct `pathToUrl`. -/
structure pathToUrl where
  Path : String
  Url : String
deriving DecidableEq, Repr

/-- A Go `error` value. -/
abbrev GoError := String

/-- The call `yaml.Unmarshal(yml, &t)` on a fresh `var t []pathToUrl`: the
value of `t` afterwards and the returned error (`none` is `nil`). -/
abbrev UnmarshalFn := List UInt8 → List pathToUrl × Option GoError

/-- `parseYaml(yml)`; the `nil` slice is `[]`. -/
def parseYaml (Unmarshal : UnmarshalFn) (yml : List UInt8) :
    List pathToUrl × Option GoError :=
  let (t, err) := Unmarshal yml
  if err.isSome then
    ([], err)
  else
    (t, err)

/-- `buildMap(parsedYaml)`: the `range` loop assigns one record after the
other into a fresh map. -/
def buildMap (parsedYaml : List pathToUrl) : GoMap :=
  parsedYaml.foldl (fun pathMap pT => pathMap.assign pT.Path pT.Url) GoMap.make

/-- `YAMLHandler(yml, fallback)`: the returned handler (`none` is `nil`) and
the returned error (`none` is `nil`). -/
def YAMLHandler {W : Type} (Unmarshal : UnmarshalFn) (yml : List UInt8)
    (fallback : Handler W) : Option (HandlerFunc W) × Option GoError :=
  let (t, err) := parseYaml Unmarshal yml
  if err.isSome then
    (none, err)
  else
    let pathMap := buildMap t
    (some (MapHandler pathMap fallback), none)

/-! ## Observing the calls a handler makes -/

/-- A call made on the response writer. -/
inductive Event where
  | Redirect (r : Request) (url : String) (code : Nat)
  | Fallback (r : Request)
deriving DecidableEq, Repr

/-- A writer that records every `http.Redirect` made on it. -/
def recordRedirect : RedirectFn (List Event) :=
  fun w r url code => w ++ [Event.Redirect r url code]

/-- A fallback handler that records every `ServeHTTP` made on it. -/
def recordFallback : Handler (List Event) :=
  fun w r => w ++ [Event.Fallback r]

/-- The server calling the handler on one request after the other. -/
def serveAll {W : Type} (Redirect : RedirectFn W) (h : HandlerFunc W) (w : W)
    (rs : List Request) : HandlerFunc W × W :=
  rs.foldl (fun s r => s.1.ServeHTTP Redirect s.2 r) (h, w)

/-! ## The captured map as shared state -/

/-- The state a call of the handler runs in: the contents of the map object
the captured variable `pathsToUrls` refers to, and the state behind the
response writer. -/
structure Shared (W : Type) where
  pathsToUrls : GoMap
  writer : W

/-- A `http.Handler` whose `ServeHTTP(w, r)` may also write the map object. -/
abbrev SharedHandler (W : Type) := Shared W → Request → Shared W

/-- The function `http.Redirect(w, r, url, code)`, which calls the methods of
`w`; these may also write the map object. -/
abbrev SharedRedirectFn (W : Type) := Shared W → Request → String → Nat → Shared W

/-- The body of the function literal of `MapHandler`, run on `(w, r)` in a
state that holds the captured map. -/
def MapHandlerShared {W : Type} (Redirect : SharedRedirectFn W)
    (fallback : SharedHandler W) : SharedHandler W :=
  fun s r =>
    let path := r.URL.Path
    let (redirect, found) := s.pathsToUrls.index path
    if found then
      Redirect s r redirect StatusPermanentRedirect
    else
      fallback s r

/-- A handler that does not hold the map: it acts on the writer only. -/
def liftHandler {W : Type} (fb : Handler W) : SharedHandler W :=
  fun s r => ⟨s.pathsToUrls, fb s.writer r⟩

/-- A `http.Redirect` on a writer that does not hold the map. -/
def liftRedirect {W : Type} (Redirect : RedirectFn W) : SharedRedirectFn W :=
  fun s r url code => ⟨s.pathsToUrls, Redirect s.writer r url code⟩

/-- A fallback handler that holds the map passed to `MapHandler` and assigns
the path it is asked for into it. -/
def registerFallback : SharedHandler (List Event) :=
  fun s r => ⟨s.pathsToUrls.assign r.URL.Path "/", s.writer ++ [Event.Fallback r]⟩

/-- The bytes of the document `- path: /foo` followed by a newline: one
record, which has no `url` key. -/
def yamlMissingUrl : List UInt8 :=
  [45, 32, 112, 97, 116, 104, 58, 32, 47, 102, 111, 111, 10]

/-- A decoder that does on `yamlMissingUrl` what `yaml.Unmarshal` does there,
leaving the field without a key at its zero value and reporting no error, and
reports an error on every other buffer. -/
def decodeMissingUrl : UnmarshalFn :=
  fun yml =>
    if yml = yamlMissingUrl then ([⟨"/foo", ""⟩], none)
    else ([], some "yaml: unmarshal errors")

/-- The `range` loop of `buildMap`, started from the map `pathMap`. -/
def buildFrom (pathMap : GoMap) (parsedYaml : List pathToUrl) : GoMap :=
  parsedYaml.foldl (fun pathMap pT => pathMap.assign pT.Path pT.Url) pathMap

/-- The map whose entries are exactly the given pairs of distinct keys. -/
def GoMap.ofPairs (pairs : List (String × String)) : GoMap := pairs

/-! ## Lemmas on Go maps -/

namespace GoMap

theorem index_assign_self (m : GoMap) (k v : String) :
    index (assign m k v) k = (v, true) := by
  induction m with
  | nil => simp [assign, index]
  | cons e m ih =>
    obtain ⟨a, b⟩ := e
    by_cases ha : a = k
    · simp [assign, index, ha]
    · simp [assign, index, ha, ih]

theorem index_assign_of_ne (m : GoMap) (k v k' : String) (h : k' ≠ k) :
    index (assign m k v) k' = index m k' := by
  induction m with
  | nil => simp [assign, index, Ne.symm h]
  | cons e m ih =>
    obtain ⟨a, b⟩ := e
    by_cases ha : a = k
    · subst ha
      simp [assign, index, Ne.symm h]
    · by_cases hb : a = k'
      · subst hb
        simp [assign, index, ha]
      · simp [assign, index, ha, hb, ih]

theorem index_snd_iff (m : GoMap) (k : String) :
    (index m k).2 = true ↔ k ∈ keys m := by
  induction m with
  | nil => simp [index, keys]
  | cons e m ih =>
    obtain ⟨a, b⟩ := e
    by_cases ha : a = k
    · simp [index, keys, ha]
    · have hk : ¬ k = a := fun h => ha h.symm
      simpa [index, keys, ha, hk] using ih

theorem index_of_not_mem (m : GoMap) (k : String) (h : k ∉ keys m) :
    index m k = ("", false) := by
  induction m with
  | nil => simp [index]
  | cons e m ih =>
    obtain ⟨a, b⟩ := e
    have hk : ¬ a = k := by
      intro hak
      exact h (by simp [keys, hak])
    have hm : k ∉ keys m := by
      intro hmem
      exact h (by simp only [keys, List.map_cons, List.mem_cons]; exact Or.inr hmem)
    simp [index, hk, ih hm]

theorem mem_keys_assign (m : GoMap) (k v k' : String) :
    k' ∈ keys (assign m k v) ↔ k' = k ∨ k' ∈ keys m := by
  induction m with
  | nil => simp [assign, keys]
  | cons e m ih =>
    obtain ⟨a, b⟩ := e
    by_cases ha : a = k
    · subst ha
      simp [assign, keys]
    · have ih' : k' ∈ List.map Prod.fst (assign m k v) ↔
          k' = k ∨ k' ∈ List.map Prod.fst m := ih
      simp only [assign, ha, if_false, keys, List.map_cons, List.mem_cons, ih']
      tauto

theorem assign_of_not_mem (m : GoMap) (k v : String) (h : k ∉ keys m) :
    assign m k v = m ++ [(k, v)] := by
  induction m with
  | nil => simp [assign]
  | cons e m ih =>
    obtain ⟨a, b⟩ := e
    have hk : ¬ a = k := by
      intro hak
      exact h (by simp [keys, hak])
    have hm : k ∉ keys m := by
      intro hmem
      exact h (by simp only [keys, List.map_cons, List.mem_cons]; exact Or.inr hmem)
    simp [assign, hk, ih hm]

theorem len_assign_le (m : GoMap) (k v : String) :
    len (assign m k v) ≤ len m + 1 := by
  induction m with
  | nil => simp [assign, len]
  | cons e m ih =>
    obtain ⟨a, b⟩ := e
    by_cases ha : a = k
    · simp [assign, len, ha]
    · have ih' : (assign m k v).length ≤ m.length + 1 := ih
      simp only [assign, ha, if_false, len, List.length_cons]
      omega

theorem nodup_keys_assign (m : GoMap) (k v : String) (h : (keys m).Nodup) :
    (keys (assign m k v)).Nodup := by
  induction m with
  | nil => simp [assign, keys]
  | cons e m ih =>
    obtain ⟨a, b⟩ := e
    have hcons : a ∉ keys m ∧ (keys m).Nodup := by
      simpa [keys] using h
    by_cases ha : a = k
    · subst ha
      simpa [assign, keys] using h
    · have hnot : a ∉ keys (assign m k v) := by
        rw [mem_keys_assign]
        rintro (h1 | h1)
        · exact ha h1
        · exact hcons.1 h1
      have hrec : (keys (assign m k v)).Nodup := ih hcons.2
      simp only [assign, ha, if_false, keys, List.map_cons, List.nodup_cons]
      exact ⟨hnot, hrec⟩

end GoMap

/-! ## Lemmas on the loop of `buildMap` -/

theorem buildMap_eq_buildFrom (rs : List pathToUrl) :
    buildMap rs = buildFrom GoMap.make rs := rfl

theorem buildFrom_nil (m : GoMap) : buildFrom m [] = m := rfl

theorem buildFrom_cons (m : GoMap) (t : pathToUrl) (rs : List pathToUrl) :
    buildFrom m (t :: rs) = buildFrom (m.assign t.Path t.Url) rs := rfl

theorem buildFrom_append (m : GoMap) (rs ss : List pathToUrl) :
    buildFrom m (rs ++ ss) = buildFrom (buildFrom m rs) ss := by
  simp [buildFrom, List.foldl_append]

theorem index_buildFrom_of_absent (rs : List pathToUrl) (m : GoMap) (p : String)
    (h : ∀ t ∈ rs, t.Path ≠ p) : (buildFrom m rs).index p = m.index p := by
  induction rs generalizing m with
  | nil => rfl
  | cons t rs ih =>
    have ht : p ≠ t.Path := fun e => h t (List.mem_cons_self t rs) e.symm
    have hrest : ∀ s ∈ rs, s.Path ≠ p := fun s hs => h s (List.mem_cons_of_mem t hs)
    rw [buildFrom_cons, ih _ hrest, GoMap.index_assign_of_ne _ _ _ _ ht]

theorem index_buildFrom_last (m : GoMap) (pre post : List pathToUrl) (t : pathToUrl)
    (h : ∀ s ∈ post, s.Path ≠ t.Path) :
    (buildFrom m (pre ++ t :: post)).index t.Path = (t.Url, true) := by
  rw [buildFrom_append, buildFrom_cons, index_buildFrom_of_absent post _ _ h,
    GoMap.index_assign_self]

theorem mem_keys_buildFrom (rs : List pathToUrl) (m : GoMap) (p : String) :
    p ∈ (buildFrom m rs).keys ↔ p ∈ m.keys ∨ ∃ t ∈ rs, t.Path = p := by
  induction rs generalizing m with
  | nil => simp [buildFrom_nil]
  | cons t rs ih =>
    rw [buildFrom_cons, ih, GoMap.mem_keys_assign]
    constructor
    · rintro ((h | h) | ⟨s, hs, hp⟩)
      · exact Or.inr ⟨t, List.mem_cons_self t rs, h.symm⟩
      · exact Or.inl h
      · exact Or.inr ⟨s, List.mem_cons_of_mem t hs, hp⟩
    · rintro (h | ⟨s, hs, hp⟩)
      · exact Or.inl (Or.inr h)
      · rcases List.mem_cons.mp hs with e | hs'
        · exact Or.inl (Or.inl (by rw [← hp, e]))
        · exact Or.inr ⟨s, hs', hp⟩

theorem nodup_keys_buildFrom (rs : List pathToUrl) (m : GoMap) (h : m.keys.Nodup) :
    (buildFrom m rs).keys.Nodup := by
  induction rs generalizing m with
  | nil => exact h
  | cons t rs ih =>
    rw [buildFrom_cons]
    exact ih _ (GoMap.nodup_keys_assign m t.Path t.Url h)

theorem len_buildFrom_le (rs : List pathToUrl) (m : GoMap) :
    (buildFrom m rs).len ≤ m.len + rs.length := by
  induction rs generalizing m with
  | nil => simp [buildFrom_nil]
  | cons t rs ih =>
    rw [buildFrom_cons]
    have h1 := ih (m.assign t.Path t.Url)
    have h2 := GoMap.len_assign_le m t.Path t.Url
    simp only [List.length_cons]
    omega

theorem buildFrom_of_distinct (rs : List pathToUrl) (m : GoMap)
    (hnew : ∀ t ∈ rs, t.Path ∉ m.keys) (hd : (rs.map fun t => t.Path).Nodup) :
    buildFrom m rs = m ++ rs.map fun t => (t.Path, t.Url) := by
  induction rs generalizing m with
  | nil => simp [buildFrom_nil]
  | cons t rs ih =>
    have hcons : (∀ s ∈ rs, ¬ s.Path = t.Path) ∧ (rs.map fun t => t.Path).Nodup := by
      simpa using hd
    have ht : t.Path ∉ m.keys := hnew t (List.mem_cons_self t rs)
    have hnew' : ∀ s ∈ rs, s.Path ∉ (m.assign t.Path t.Url).keys := by
      intro s hs
      rw [GoMap.mem_keys_assign]
      rintro (e | e)
      · exact hcons.1 s hs e
      · exact hnew s (List.mem_cons_of_mem t hs) e
    rw [buildFrom_cons, ih _ hnew' hcons.2, GoMap.assign_of_not_mem m _ _ ht]
    simp

/-- Every path that occurs in a record sequence has a last record. -/
theorem exists_last_record (rs : List pathToUrl) (p : String)
    (h : ∃ t ∈ rs, t.Path = p) :
    ∃ pre t post, rs = pre ++ t :: post ∧ t.Path = p ∧ ∀ s ∈ post, s.Path ≠ p := by
  induction rs with
  | nil => simp at h
  | cons a rs ih =>
    by_cases hr : ∃ t ∈ rs, t.Path = p
    · obtain ⟨pre, t, post, e, ht, hpost⟩ := ih hr
      exact ⟨a :: pre, t, post, by rw [e]; rfl, ht, hpost⟩
    · obtain ⟨t, ht, hp⟩ := h
      rcases List.mem_cons.mp ht with e | ht'
      · refine ⟨[], a, rs, rfl, by rw [← e]; exact hp, ?_⟩
        intro s hs hsp
        exact hr ⟨s, hs, hsp⟩
      · exact absurd ⟨t, ht', hp⟩ hr

/-! ## Lemmas on the handler -/

theorem GoMap.index_mem (m : GoMap) (k : String) (h : k ∈ m.keys) :
    (k, (m.index k).1) ∈ m := by
  induction m with
  | nil => simp [GoMap.keys] at h
  | cons e m ih =>
    obtain ⟨a, b⟩ := e
    by_cases ha : a = k
    · subst ha
      simp [GoMap.index]
    · have hk : k ∈ GoMap.keys m := by
        have h' : k = a ∨ k ∈ List.map Prod.fst m := by
          simpa [GoMap.keys] using h
        rcases h' with e | e
        · exact absurd e.symm ha
        · exact e
      have := ih hk
      simp only [GoMap.index, ha, if_false, List.mem_cons]
      exact Or.inr this

theorem ServeHTTP_eq {W : Type} (Redirect : RedirectFn W) (h : HandlerFunc W)
    (w : W) (r : Request) :
    h.ServeHTTP Redirect w r =
      (h, if (h.pathsToUrls.index r.URL.Path).2 then
            Redirect w r (h.pathsToUrls.index r.URL.Path).1 StatusPermanentRedirect
          else h.fallback w r) := by
  unfold HandlerFunc.ServeHTTP
  rcases hidx : h.pathsToUrls.index r.URL.Path with ⟨u, ok⟩
  cases ok <;> simp [hidx]

theorem serveAll_nil {W : Type} (Redirect : RedirectFn W) (h : HandlerFunc W) (w : W) :
    serveAll Redirect h w [] = (h, w) := rfl

theorem serveAll_cons {W : Type} (Redirect : RedirectFn W) (h : HandlerFunc W) (w : W)
    (r : Request) (rs : List Request) :
    serveAll Redirect h w (r :: rs) =
      serveAll Redirect (h.ServeHTTP Redirect w r).1 (h.ServeHTTP Redirect w r).2 rs := rfl

theorem serveAll_same_path {W : Type} (Redirect : RedirectFn W) (h : HandlerFunc W)
    (p : String) (rs : List Request) (w : W) (hp : ∀ r ∈ rs, r.URL.Path = p) :
    serveAll Redirect h w rs =
      (h, rs.foldl (fun w r =>
            if (h.pathsToUrls.index p).2 then
              Redirect w r (h.pathsToUrls.index p).1 StatusPermanentRedirect
            else h.fallback w r) w) := by
  induction rs generalizing w with
  | nil => rfl
  | cons r rs ih =>
    have hr : r.URL.Path = p := hp r (List.mem_cons_self r rs)
    have hrest : ∀ s ∈ rs, s.URL.Path = p := fun s hs => hp s (List.mem_cons_of_mem r hs)
    rw [serveAll_cons, ServeHTTP_eq, hr]
    exact ih _ hrest

theorem foldl_record (c : Bool) (u : String) (rs : List Request) (log : List Event) :
    rs.foldl (fun w r =>
        if c then recordRedirect w r u StatusPermanentRedirect else recordFallback w r) log =
      log ++ rs.map (fun r =>
        if c then Event.Redirect r u StatusPermanentRedirect else Event.Fallback r) := by
  induction rs generalizing log with
  | nil => simp
  | cons r rs ih =>
    rw [List.foldl_cons, ih]
    cases c <;> simp [recordRedirect, recordFallback]

/-! ## Lemmas on the loader -/

theorem parseYaml_of_err (Unmarshal : UnmarshalFn) (yml : List UInt8) (e : GoError)
    (h : (Unmarshal yml).2 = some e) : parseYaml Unmarshal yml = ([], some e) := by
  unfold parseYaml
  rcases hu : Unmarshal yml with ⟨t, err⟩
  rw [hu] at h
  simp only at h
  subst h
  simp

theorem parseYaml_of_ok (Unmarshal : UnmarshalFn) (yml : List UInt8)
    (h : (Unmarshal yml).2 = none) : parseYaml Unmarshal yml = ((Unmarshal yml).1, none) := by
  unfold parseYaml
  rcases hu : Unmarshal yml with ⟨t, err⟩
  rw [hu] at h
  simp only at h
  subst h
  simp

theorem parseYaml_snd (Unmarshal : UnmarshalFn) (yml : List UInt8) :
    (parseYaml Unmarshal yml).2 = (Unmarshal yml).2 := by
  cases h : (Unmarshal yml).2 with
  | none => rw [parseYaml_of_ok Unmarshal yml h]
  | some e => rw [parseYaml_of_err Unmarshal yml e h]

theorem YAMLHandler_of_err {W : Type} (Unmarshal : UnmarshalFn) (yml : List UInt8)
    (fb : Handler W) (e : GoError) (h : (parseYaml Unmarshal yml).2 = some e) :
    YAMLHandler Unmarshal yml fb = (none, some e) := by
  unfold YAMLHandler
  rcases hp : parseYaml Unmarshal yml with ⟨t, err⟩
  rw [hp] at h
  simp only at h
  subst h
  simp

theorem YAMLHandler_of_ok {W : Type} (Unmarshal : UnmarshalFn) (yml : List UInt8)
    (fb : Handler W) (h : (parseYaml Unmarshal yml).2 = none) :
    YAMLHandler Unmarshal yml fb =
      (some (MapHandler (buildMap (parseYaml Unmarshal yml).1) fb), none) := by
  unfold YAMLHandler
  rcases hp : parseYaml Unmarshal yml with ⟨t, err⟩
  rw [hp] at h
  simp only at h
  subst h
  simp

/-! ## Lemmas on the handler over the shared map -/

theorem MapHandlerShared_eq {W : Type} (Redirect : SharedRedirectFn W)
    (fb : SharedHandler W) (s : Shared W) (r : Request) :
    MapHandlerShared Redirect fb s r =
      if (s.pathsToUrls.index r.URL.Path).2 then
        Redirect s r (s.pathsToUrls.index r.URL.Path).1 StatusPermanentRedirect
      else fb s r := by
  unfold MapHandlerShared
  rcases hidx : s.pathsToUrls.index r.URL.Path with ⟨u, ok⟩
  cases ok <;> simp [hidx]

/-- With a writer and a fallback that do not hold the map, the handler over
the shared map does what `HandlerFunc.ServeHTTP` does. -/
theorem MapHandlerShared_lift {W : Type} (Redirect : RedirectFn W) (M : GoMap)
    (fb : Handler W) (w : W) (r : Request) :
    MapHandlerShared (liftRedirect Redirect) (liftHandler fb) ⟨M, w⟩ r =
      ⟨M, ((MapHandler M fb).ServeHTTP Redirect w r).2⟩ := by
  rw [MapHandlerShared_eq, ServeHTTP_eq]
  by_cases hok : (M.index r.URL.Path).2 = true
  · simp [MapHandler, hok, liftRedirect]
  · simp [MapHandler, hok, liftHandler]

theorem MapHandlerShared_frame {W : Type} (Redirect : SharedRedirectFn W)
    (fb : SharedHandler W)
    (hR : ∀ s r u c, (Redirect s r u c).pathsToUrls = s.pathsToUrls)
    (hF : ∀ s r, (fb s r).pathsToUrls = s.pathsToUrls) (s : Shared W) (r : Request) :
    (MapHandlerShared Redirect fb s r).pathsToUrls = s.pathsToUrls := by
  rw [MapHandlerShared_eq]
  by_cases hok : (s.pathsToUrls.index r.URL.Path).2 = true
  · simp [hok, hR]
  · simp [hok, hF]

/-! ## The claims -/

/-- C1: when the request path is a key of the mapping, the handler built by
`MapHandler` makes exactly one call, `http.Redirect` with status 308 and the
mapped url as target, on the writer and request it received, and does not
call the fallback. -/
theorem C1_hit_redirects_once {W : Type} (Redirect : RedirectFn W) (M : GoMap)
    (fb : Handler W) (w : W) (r : Request) (log : List Event)
    (hkey : r.URL.Path ∈ M.keys) :
    ((MapHandler M fb).ServeHTTP Redirect w r).2 =
        Redirect w r (M.index r.URL.Path).1 308 ∧
      ((MapHandler M recordFallback).ServeHTTP recordRedirect log r).2 =
        log ++ [Event.Redirect r (M.index r.URL.Path).1 308] ∧
      (r.URL.Path, (M.index r.URL.Path).1) ∈ M := by
  have hok : (M.index r.URL.Path).2 = true := (GoMap.index_snd_iff M _).mpr hkey
  refine ⟨?_, ?_, GoMap.index_mem M _ hkey⟩
  · rw [ServeHTTP_eq]
    simp [MapHandler, hok, StatusPermanentRedirect]
  · rw [ServeHTTP_eq]
    simp [MapHandler, hok, StatusPermanentRedirect, recordRedirect]

theorem C1_hit_redirects_once_witness :
    "/urlshort" ∈ GoMap.keys [("/urlshort", "https://github.com/gophercises/urlshort"),
        ("/urlshort-final", "https://github.com/gophercises/urlshort/tree/solution")] ∧
      ((MapHandler [("/urlshort", "https://github.com/gophercises/urlshort"),
          ("/urlshort-final", "https://github.com/gophercises/urlshort/tree/solution")]
          recordFallback).ServeHTTP recordRedirect []
          ⟨"GET", ⟨"http", "localhost:8080", "/urlshort", ""⟩⟩).2 =
        [Event.Redirect ⟨"GET", ⟨"http", "localhost:8080", "/urlshort", ""⟩⟩
          "https://github.com/gophercises/urlshort" 308] :=
  ⟨by decide,
    (C1_hit_redirects_once recordRedirect
      [("/urlshort", "https://github.com/gophercises/urlshort"),
        ("/urlshort-final", "https://github.com/gophercises/urlshort/tree/solution")]
      recordFallback [] ⟨"GET", ⟨"http", "localhost:8080", "/urlshort", ""⟩⟩ []
      (by decide)).2.1⟩

/-- C2: when the request path is not a key of the mapping (the empty mapping
included), the handler built by `MapHandler` makes exactly one call, the
fallback on the writer and request it received, makes no redirect, and its
outcome is the outcome of the fallback. -/
theorem C2_miss_delegates_once {W : Type} (Redirect : RedirectFn W) (M : GoMap)
    (fb : Handler W) (w : W) (r : Request) (log : List Event)
    (hmiss : r.URL.Path ∉ M.keys) :
    ((MapHandler M fb).ServeHTTP Redirect w r).2 = fb w r ∧
      ((MapHandler M recordFallback).ServeHTTP recordRedirect log r).2 =
        log ++ [Event.Fallback r] := by
  have hok : (M.index r.URL.Path).2 = false := by
    rw [GoMap.index_of_not_mem M _ hmiss]
  constructor
  · rw [ServeHTTP_eq]
    simp [MapHandler, hok]
  · rw [ServeHTTP_eq]
    simp [MapHandler, hok, recordFallback]

theorem C2_miss_delegates_once_witness :
    "/unknown" ∉ GoMap.keys [("/urlshort", "https://github.com/gophercises/urlshort"),
        ("/urlshort-final", "https://github.com/gophercises/urlshort/tree/solution")] ∧
      ((MapHandler [("/urlshort", "https://github.com/gophercises/urlshort"),
          ("/urlshort-final", "https://github.com/gophercises/urlshort/tree/solution")]
          recordFallback).ServeHTTP recordRedirect []
          ⟨"GET", ⟨"http", "localhost:8080", "/unknown", ""⟩⟩).2 =
        [Event.Fallback ⟨"GET", ⟨"http", "localhost:8080", "/unknown", ""⟩⟩] :=
  ⟨by decide,
    (C2_miss_delegates_once recordRedirect
      [("/urlshort", "https://github.com/gophercises/urlshort"),
        ("/urlshort-final", "https://github.com/gophercises/urlshort/tree/solution")]
      recordFallback [] ⟨"GET", ⟨"http", "localhost:8080", "/unknown", ""⟩⟩ []
      (by decide)).2⟩

/-- C7, as the code has it: the handler writes nothing to the mapping itself.
The state after an invocation is the state left by the one call it makes,
`http.Redirect` on a hit and the fallback on a miss; so when the response
writer and the fallback leave the mapping as it is, the mapping after the
invocation, and after any sequence of invocations, equals the mapping before,
on the hit and on the miss branch. -/
theorem C7_handler_writes_nothing {W : Type} (Redirect : SharedRedirectFn W)
    (fb : SharedHandler W) (s : Shared W) (r : Request) (rs : List Request) :
    (MapHandlerShared Redirect fb s r =
        if (s.pathsToUrls.index r.URL.Path).2 then
          Redirect s r (s.pathsToUrls.index r.URL.Path).1 308
        else fb s r) ∧
      ((∀ s r u c, (Redirect s r u c).pathsToUrls = s.pathsToUrls) →
        (∀ s r, (fb s r).pathsToUrls = s.pathsToUrls) →
        (MapHandlerShared Redirect fb s r).pathsToUrls = s.pathsToUrls ∧
          (rs.foldl (MapHandlerShared Redirect fb) s).pathsToUrls = s.pathsToUrls) := by
  refine ⟨MapHandlerShared_eq Redirect fb s r, ?_⟩
  intro hR hF
  refine ⟨MapHandlerShared_frame Redirect fb hR hF s r, ?_⟩
  induction rs generalizing s with
  | nil => rfl
  | cons a rs ih =>
    rw [List.foldl_cons, ih, MapHandlerShared_frame Redirect fb hR hF s a]

theorem C7_handler_writes_nothing_witness :
    (MapHandlerShared (liftRedirect recordRedirect) (liftHandler recordFallback)
        ⟨[("/a", "x")], []⟩ ⟨"GET", ⟨"", "", "/a", ""⟩⟩).pathsToUrls = [("/a", "x")] ∧
      (List.foldl (MapHandlerShared (liftRedirect recordRedirect) (liftHandler recordFallback))
        ⟨[("/a", "x")], []⟩
        [⟨"GET", ⟨"", "", "/a", ""⟩⟩, ⟨"GET", ⟨"", "", "/b", ""⟩⟩]).pathsToUrls =
        [("/a", "x")] :=
  (C7_handler_writes_nothing (liftRedirect recordRedirect) (liftHandler recordFallback)
    ⟨[("/a", "x")], []⟩ ⟨"GET", ⟨"", "", "/a", ""⟩⟩
    [⟨"GET", ⟨"", "", "/a", ""⟩⟩, ⟨"GET", ⟨"", "", "/b", ""⟩⟩]).2
    (fun _ _ _ _ => rfl) (fun _ _ => rfl)

/-- C7 fails as stated: with a fallback that holds the map and assigns into
it, the mapping after a miss is no longer the mapping the handler was built
from. -/
theorem C7_counterexample :
    (MapHandlerShared (liftRedirect recordRedirect) registerFallback
        ⟨[("/a", "x")], []⟩ ⟨"GET", ⟨"", "", "/b", ""⟩⟩).pathsToUrls =
        [("/a", "x"), ("/b", "/")] ∧
      (MapHandlerShared (liftRedirect recordRedirect) registerFallback
        ⟨[("/a", "x")], []⟩ ⟨"GET", ⟨"", "", "/b", ""⟩⟩).pathsToUrls ≠ [("/a", "x")] :=
  ⟨by decide, by decide⟩

/-- C8: on any sequence of requests that all carry the path `p`, every
invocation of the handler built by `MapHandler` makes the same kind of call,
a redirect with the same target and status 308 when `p` is a key and the
fallback when it is not, whatever the earlier invocations did. -/
theorem C8_resolution_idempotent {W : Type} (Redirect : RedirectFn W) (M : GoMap)
    (fb : Handler W) (p : String) (rs : List Request) (w : W) (log : List Event)
    (hp : ∀ r ∈ rs, r.URL.Path = p) :
    serveAll Redirect (MapHandler M fb) w rs =
        (MapHandler M fb, rs.foldl (fun w r =>
          if (M.index p).2 then Redirect w r (M.index p).1 308 else fb w r) w) ∧
      (serveAll recordRedirect (MapHandler M recordFallback) log rs).2 =
        log ++ rs.map (fun r =>
          if (M.index p).2 then Event.Redirect r (M.index p).1 308
          else Event.Fallback r) := by
  constructor
  · exact serveAll_same_path Redirect (MapHandler M fb) p rs w hp
  · rw [serveAll_same_path recordRedirect (MapHandler M recordFallback) p rs log hp]
    exact foldl_record (M.index p).2 (M.index p).1 rs log

theorem C8_resolution_idempotent_witness :
    (∀ r ∈ [(⟨"GET", ⟨"", "", "/a", ""⟩⟩ : Request), ⟨"POST", ⟨"", "h", "/a", "q=1"⟩⟩,
        ⟨"GET", ⟨"", "", "/a", ""⟩⟩], r.URL.Path = "/a") ∧
      (serveAll recordRedirect (MapHandler [("/a", "https://a.example")] recordFallback) []
        [⟨"GET", ⟨"", "", "/a", ""⟩⟩, ⟨"POST", ⟨"", "h", "/a", "q=1"⟩⟩,
          ⟨"GET", ⟨"", "", "/a", ""⟩⟩]).2 =
        [Event.Redirect ⟨"GET", ⟨"", "", "/a", ""⟩⟩ "https://a.example" 308,
          Event.Redirect ⟨"POST", ⟨"", "h", "/a", "q=1"⟩⟩ "https://a.example" 308,
          Event.Redirect ⟨"GET", ⟨"", "", "/a", ""⟩⟩ "https://a.example" 308] :=
  ⟨by decide,
    (C8_resolution_idempotent recordRedirect [("/a", "https://a.example")] recordFallback
      "/a" [⟨"GET", ⟨"", "", "/a", ""⟩⟩, ⟨"POST", ⟨"", "h", "/a", "q=1"⟩⟩,
        ⟨"GET", ⟨"", "", "/a", ""⟩⟩] [] [] (by decide)).2⟩

/-- C3: last write wins. A path that occurs in the record sequence has a last
record, and `buildMap` maps the path to the url of that record, whatever
records of the same path come before it. -/
theorem C3_last_write_wins (rs : List pathToUrl) (p : String)
    (hocc : ∃ t ∈ rs, t.Path = p) :
    (∃ pre t post, rs = pre ++ t :: post ∧ t.Path = p ∧ (∀ s ∈ post, s.Path ≠ p) ∧
        (buildMap rs).index p = (t.Url, true)) ∧
      (∀ pre t post, rs = pre ++ t :: post → t.Path = p → (∀ s ∈ post, s.Path ≠ p) →
        (buildMap rs).index p = (t.Url, true)) := by
  have hall : ∀ pre t post, rs = pre ++ t :: post → t.Path = p →
      (∀ s ∈ post, s.Path ≠ p) → (buildMap rs).index p = (t.Url, true) := by
    intro pre t post e ht hpost
    subst ht
    rw [e, buildMap_eq_buildFrom]
    exact index_buildFrom_last GoMap.make pre post t hpost
  obtain ⟨pre, t, post, e, ht, hpost⟩ := exists_last_record rs p hocc
  exact ⟨⟨pre, t, post, e, ht, hpost, hall pre t post e ht hpost⟩, hall⟩

theorem C3_last_write_wins_witness :
    (∃ t ∈ [(⟨"/a", "x"⟩ : pathToUrl), ⟨"/b", "y"⟩, ⟨"/a", "z"⟩], t.Path = "/a") ∧
      (buildMap [⟨"/a", "x"⟩, ⟨"/b", "y"⟩, ⟨"/a", "z"⟩]).index "/a" = ("z", true) :=
  ⟨⟨⟨"/a", "x"⟩, by decide, rfl⟩,
    (C3_last_write_wins [⟨"/a", "x"⟩, ⟨"/b", "y"⟩, ⟨"/a", "z"⟩] "/a"
      ⟨⟨"/a", "x"⟩, by decide, rfl⟩).2 [⟨"/a", "x"⟩, ⟨"/b", "y"⟩] ⟨"/a", "z"⟩ [] rfl rfl
      (by intro s hs; cases hs)⟩

/-- C4: round trip. On a record sequence whose paths are pairwise distinct,
`buildMap` yields a map with as many keys as there are records, equal to the
map made of the (path, url) pairs of the records: every record's path maps to
that record's url, and no other path is a key. -/
theorem C4_distinct_paths_roundtrip (rs : List pathToUrl)
    (hd : (rs.map fun t => t.Path).Nodup) :
    (buildMap rs).len = rs.length ∧
      buildMap rs = GoMap.ofPairs (rs.map fun t => (t.Path, t.Url)) ∧
      (buildMap rs).keys.Nodup ∧
      (∀ t ∈ rs, (buildMap rs).index t.Path = (t.Url, true)) ∧
      (∀ p, (∀ t ∈ rs, t.Path ≠ p) → (buildMap rs).index p = ("", false)) := by
  have heq : buildMap rs = rs.map fun t => (t.Path, t.Url) := by
    rw [buildMap_eq_buildFrom, buildFrom_of_distinct rs GoMap.make (by simp [GoMap.make, GoMap.keys]) hd]
    simp [GoMap.make]
  refine ⟨?_, heq, ?_, ?_, ?_⟩
  · rw [heq]
    simp [GoMap.len]
  · rw [buildMap_eq_buildFrom]
    exact nodup_keys_buildFrom rs GoMap.make (by simp [GoMap.make, GoMap.keys])
  · intro t ht
    obtain ⟨pre, post, e⟩ := List.append_of_mem ht
    have hpost : ∀ s ∈ post, s.Path ≠ t.Path := by
      intro s hs hsp
      rw [e, List.map_append, List.map_cons] at hd
      have h2 := (List.nodup_cons.mp (List.nodup_append.mp hd).2.1).1
      exact h2 (List.mem_map.mpr ⟨s, hs, hsp⟩)
    rw [e, buildMap_eq_buildFrom]
    exact index_buildFrom_last GoMap.make pre post t hpost
  · intro p hp
    rw [buildMap_eq_buildFrom, index_buildFrom_of_absent rs GoMap.make p hp]
    rfl

theorem C4_distinct_paths_roundtrip_witness :
    (List.map (fun t => t.Path) [(⟨"/foo", "https://foo.com"⟩ : pathToUrl),
        ⟨"/bar", "https://bar.com"⟩]).Nodup ∧
      (buildMap [⟨"/foo", "https://foo.com"⟩, ⟨"/bar", "https://bar.com"⟩]).len = 2 ∧
      buildMap [⟨"/foo", "https://foo.com"⟩, ⟨"/bar", "https://bar.com"⟩] =
        GoMap.ofPairs [("/foo", "https://foo.com"), ("/bar", "https://bar.com")] :=
  ⟨by decide,
    (C4_distinct_paths_roundtrip [⟨"/foo", "https://foo.com"⟩, ⟨"/bar", "https://bar.com"⟩]
      (by decide)).1,
    (C4_distinct_paths_roundtrip [⟨"/foo", "https://foo.com"⟩, ⟨"/bar", "https://bar.com"⟩]
      (by decide)).2.1⟩

/-- C10: a string is a key of `buildMap rs` exactly when some record of `rs`
has it as path; `buildMap` of the empty sequence is the empty map, the keys
are pairwise distinct and there are at most as many as records. -/
theorem C10_keys_are_record_paths (rs : List pathToUrl) (p : String) :
    (((buildMap rs).index p).2 = true ↔ ∃ t ∈ rs, t.Path = p) ∧
      (p ∈ (buildMap rs).keys ↔ ∃ t ∈ rs, t.Path = p) ∧
      buildMap [] = GoMap.make ∧
      (buildMap rs).keys.Nodup ∧
      (buildMap rs).len ≤ rs.length := by
  have hkeys : p ∈ (buildMap rs).keys ↔ ∃ t ∈ rs, t.Path = p := by
    rw [buildMap_eq_buildFrom, mem_keys_buildFrom]
    simp [GoMap.make, GoMap.keys]
  refine ⟨?_, hkeys, rfl, ?_, ?_⟩
  · rw [GoMap.index_snd_iff]
    exact hkeys
  · rw [buildMap_eq_buildFrom]
    exact nodup_keys_buildFrom rs GoMap.make (by simp [GoMap.make, GoMap.keys])
  · have h := len_buildFrom_le rs GoMap.make
    rw [buildMap_eq_buildFrom]
    simpa [GoMap.make, GoMap.len] using h

/-- C5: `YAMLHandler` returns an error exactly when `parseYaml` does; it then
returns that error and the nil handler, and otherwise the nil error and the
handler `MapHandler (buildMap records) fallback` of the decoded records. -/
theorem C5_error_iff_decode_error {W : Type} (Unmarshal : UnmarshalFn)
    (yml : List UInt8) (fb : Handler W) :
    ((YAMLHandler Unmarshal yml fb).2.isSome ↔ (parseYaml Unmarshal yml).2.isSome) ∧
      (∀ e, (parseYaml Unmarshal yml).2 = some e →
        YAMLHandler Unmarshal yml fb = (none, some e)) ∧
      ((parseYaml Unmarshal yml).2 = none →
        YAMLHandler Unmarshal yml fb =
          (some (MapHandler (buildMap (parseYaml Unmarshal yml).1) fb), none)) := by
  refine ⟨?_, fun e h => YAMLHandler_of_err Unmarshal yml fb e h,
    fun h => YAMLHandler_of_ok Unmarshal yml fb h⟩
  cases h : (parseYaml Unmarshal yml).2 with
  | none => rw [YAMLHandler_of_ok Unmarshal yml fb h]
  | some e => rw [YAMLHandler_of_err Unmarshal yml fb e h]

theorem C5_error_iff_decode_error_witness :
    YAMLHandler decodeMissingUrl [] recordFallback = (none, some "yaml: unmarshal errors") ∧
      YAMLHandler decodeMissingUrl yamlMissingUrl recordFallback =
        (some (MapHandler (buildMap [⟨"/foo", ""⟩]) recordFallback), none) :=
  ⟨(C5_error_iff_decode_error decodeMissingUrl [] recordFallback).2.1
      "yaml: unmarshal errors" rfl,
    (C5_error_iff_decode_error decodeMissingUrl yamlMissingUrl recordFallback).2.2 rfl⟩

/-- C6, as the code has it: the loader fails exactly when `yaml.Unmarshal`
reports an error, and then returns that error, the nil handler and no
records; when the decode reports no error every decoded record is folded into
the mapping, its path being a key, also a record with an empty path or an
empty url. -/
theorem C6_fails_only_on_decode_error {W : Type} (Unmarshal : UnmarshalFn)
    (yml : List UInt8) (fb : Handler W) :
    ((YAMLHandler Unmarshal yml fb).2.isSome ↔ (Unmarshal yml).2.isSome) ∧
      (∀ e, (Unmarshal yml).2 = some e →
        parseYaml Unmarshal yml = ([], some e) ∧
          YAMLHandler Unmarshal yml fb = (none, some e)) ∧
      ((Unmarshal yml).2 = none →
        ∃ h, YAMLHandler Unmarshal yml fb = (some h, none) ∧
          h.pathsToUrls = buildMap (Unmarshal yml).1 ∧
          ∀ t ∈ (Unmarshal yml).1, t.Path ∈ h.pathsToUrls.keys) := by
  have herr : ∀ e, (Unmarshal yml).2 = some e →
      parseYaml Unmarshal yml = ([], some e) ∧
        YAMLHandler Unmarshal yml fb = (none, some e) := by
    intro e h
    have hp := parseYaml_of_err Unmarshal yml e h
    exact ⟨hp, YAMLHandler_of_err Unmarshal yml fb e (by rw [hp])⟩
  have hok : (Unmarshal yml).2 = none →
      ∃ h, YAMLHandler Unmarshal yml fb = (some h, none) ∧
        h.pathsToUrls = buildMap (Unmarshal yml).1 ∧
        ∀ t ∈ (Unmarshal yml).1, t.Path ∈ h.pathsToUrls.keys := by
    intro h
    have hp := parseYaml_of_ok Unmarshal yml h
    refine ⟨MapHandler (buildMap (Unmarshal yml).1) fb, ?_, rfl, ?_⟩
    · rw [YAMLHandler_of_ok Unmarshal yml fb (by rw [hp]), hp]
    · intro t ht
      show t.Path ∈ (buildMap (Unmarshal yml).1).keys
      rw [buildMap_eq_buildFrom, mem_keys_buildFrom]
      exact Or.inr ⟨t, ht, rfl⟩
  refine ⟨?_, herr, hok⟩
  cases h : (Unmarshal yml).2 with
  | none =>
    obtain ⟨g, hg, _⟩ := hok h
    rw [hg]
  | some e =>
    rw [(herr e h).2]

theorem C6_fails_only_on_decode_error_witness :
    (∃ h, YAMLHandler decodeMissingUrl yamlMissingUrl recordFallback = (some h, none) ∧
        h.pathsToUrls = buildMap (decodeMissingUrl yamlMissingUrl).1 ∧
        ∀ t ∈ (decodeMissingUrl yamlMissingUrl).1, t.Path ∈ h.pathsToUrls.keys) ∧
      (parseYaml decodeMissingUrl [] = ([], some "yaml: unmarshal errors") ∧
        YAMLHandler decodeMissingUrl [] recordFallback =
          (none, some "yaml: unmarshal errors")) :=
  ⟨(C6_fails_only_on_decode_error decodeMissingUrl yamlMissingUrl recordFallback).2.2 rfl,
    (C6_fails_only_on_decode_error decodeMissingUrl [] recordFallback).2.1
      "yaml: unmarshal errors" rfl⟩

/-- C6 fails as stated: on a buffer whose record has no `url` key, decoded
without error to a record with the empty url, the loader returns no error and
a handler whose mapping holds that record. -/
theorem C6_counterexample :
    (decodeMissingUrl yamlMissingUrl = ([⟨"/foo", ""⟩], none)) ∧
      (YAMLHandler decodeMissingUrl yamlMissingUrl recordFallback).2 = none ∧
      ∃ h, (YAMLHandler decodeMissingUrl yamlMissingUrl recordFallback).1 = some h ∧
        h.pathsToUrls = [("/foo", "")] ∧
        h.pathsToUrls.index "/foo" = ("", true) :=
  ⟨rfl, rfl, MapHandler [("/foo", "")] recordFallback, rfl, rfl, by decide⟩

/-- C9: end to end. When the decode succeeds with the records `rs`,
`YAMLHandler` returns the handler `MapHandler (buildMap rs) fallback`; on a
request whose path some record of `rs` has, there is a last such record and
that handler makes one redirect with status 308 to its url, and on a request
whose path no record has it makes one call of the fallback. -/
theorem C9_end_to_end {W : Type} (Redirect : RedirectFn W) (Unmarshal : UnmarshalFn)
    (yml : List UInt8) (fb : Handler W) (rs : List pathToUrl) (w : W) (r : Request)
    (log : List Event) (hdec : parseYaml Unmarshal yml = (rs, none)) :
    YAMLHandler Unmarshal yml fb = (some (MapHandler (buildMap rs) fb), none) ∧
      (∀ pre t post, rs = pre ++ t :: post → t.Path = r.URL.Path →
        (∀ s ∈ post, s.Path ≠ r.URL.Path) →
        ((MapHandler (buildMap rs) fb).ServeHTTP Redirect w r).2 =
            Redirect w r t.Url 308 ∧
          ((MapHandler (buildMap rs) recordFallback).ServeHTTP recordRedirect log r).2 =
            log ++ [Event.Redirect r t.Url 308]) ∧
      ((∃ t ∈ rs, t.Path = r.URL.Path) →
        ∃ pre t post, rs = pre ++ t :: post ∧ t.Path = r.URL.Path ∧
          (∀ s ∈ post, s.Path ≠ r.URL.Path) ∧
          ((MapHandler (buildMap rs) fb).ServeHTTP Redirect w r).2 =
            Redirect w r t.Url 308) ∧
      ((∀ t ∈ rs, t.Path ≠ r.URL.Path) →
        ((MapHandler (buildMap rs) fb).ServeHTTP Redirect w r).2 = fb w r ∧
          ((MapHandler (buildMap rs) recordFallback).ServeHTTP recordRedirect log r).2 =
            log ++ [Event.Fallback r]) := by
  have hlast : ∀ pre t post, rs = pre ++ t :: post → t.Path = r.URL.Path →
      (∀ s ∈ post, s.Path ≠ r.URL.Path) →
      ((MapHandler (buildMap rs) fb).ServeHTTP Redirect w r).2 =
          Redirect w r t.Url 308 ∧
        ((MapHandler (buildMap rs) recordFallback).ServeHTTP recordRedirect log r).2 =
          log ++ [Event.Redirect r t.Url 308] := by
    intro pre t post e ht hpost
    have hidx : (buildMap rs).index r.URL.Path = (t.Url, true) := by
      rw [← ht] at hpost ⊢
      rw [e, buildMap_eq_buildFrom]
      exact index_buildFrom_last GoMap.make pre post t hpost
    constructor
    · rw [ServeHTTP_eq]
      simp [MapHandler, hidx, StatusPermanentRedirect]
    · rw [ServeHTTP_eq]
      simp [MapHandler, hidx, StatusPermanentRedirect, recordRedirect]
  refine ⟨?_, hlast, ?_, ?_⟩
  · rw [YAMLHandler_of_ok Unmarshal yml fb (by rw [hdec]), hdec]
  · intro hocc
    obtain ⟨pre, t, post, e, ht, hpost⟩ := exists_last_record rs r.URL.Path hocc
    exact ⟨pre, t, post, e, ht, hpost, (hlast pre t post e ht hpost).1⟩
  · intro hnone
    have hidx : (buildMap rs).index r.URL.Path = ("", false) := by
      rw [buildMap_eq_buildFrom, index_buildFrom_of_absent rs GoMap.make _ hnone]
      rfl
    constructor
    · rw [ServeHTTP_eq]
      simp [MapHandler, hidx]
    · rw [ServeHTTP_eq]
      simp [MapHandler, hidx, recordFallback]

theorem C9_end_to_end_witness :
    parseYaml (fun _ => ([⟨"/a", "x"⟩, ⟨"/b", "y"⟩, ⟨"/a", "z"⟩], none)) [] =
        ([⟨"/a", "x"⟩, ⟨"/b", "y"⟩, ⟨"/a", "z"⟩], none) ∧
      ((MapHandler (buildMap [⟨"/a", "x"⟩, ⟨"/b", "y"⟩, ⟨"/a", "z"⟩])
          recordFallback).ServeHTTP recordRedirect [] ⟨"GET", ⟨"", "", "/a", ""⟩⟩).2 =
        [] ++ [Event.Redirect ⟨"GET", ⟨"", "", "/a", ""⟩⟩ "z" 308] :=
  ⟨rfl,
    ((C9_end_to_end recordRedirect
      (fun _ => ([⟨"/a", "x"⟩, ⟨"/b", "y"⟩, ⟨"/a", "z"⟩], none)) [] recordFallback
      [⟨"/a", "x"⟩, ⟨"/b", "y"⟩, ⟨"/a", "z"⟩] [] ⟨"GET", ⟨"", "", "/a", ""⟩⟩ [] rfl).2.1
      [⟨"/a", "x"⟩, ⟨"/b", "y"⟩] ⟨"/a", "z"⟩ [] rfl rfl (by intro s hs; cases hs)).2⟩

end urlshort
